import Mathlib

/-!
Verification of the resume-matching core: a shallow embedding of the
retrieval-and-ranking pipeline (multi-signal scorer, resume index, evidence
segmenter, grounded evaluator) in Lean 4, with theorems settling the
specified properties.

Modelling conventions:
* Text is `List Char` (Python `str`, ASCII fragment; `str.lower`, `str.strip`,
  `str.isupper` are modelled on ASCII characters).
* Machine floats are modelled as `ℚ`; Python `round(x, n)` is modelled as
  round-half-to-even on `ℚ` (the documented semantics of Python `round`).
* External leaf capabilities (sentence-transformers embedding, sklearn cosine
  similarity, rapidfuzz token-set ratio, sha256, the Mistral completion
  service, chromadb storage) are parameters of the embedded functions, or are
  modelled by their documented contract where the pipeline's behaviour
  depends on it (chromadb `upsert` replaces the record stored under an id).
* `raise`/`except` control flow is modelled with `Except`/total functions.
-/

/-! ## Basic Python string operations -/

/-- ASCII whitespace, as recognised by Python `str.strip` / `\s`. -/
def isPySpace (c : Char) : Bool :=
  c = ' ' || c = '\t' || c = '\n' || c = '\r' || c = '\x0b' || c = '\x0c'

/-- Python `str.strip()`: remove leading and trailing whitespace. -/
def pyStrip (l : List Char) : List Char :=
  ((l.dropWhile isPySpace).reverse.dropWhile isPySpace).reverse

/-- Python `str.split(sep)` for a one-character separator: split on every
occurrence, keeping empty fields. -/
def splitOnChar (c : Char) : List Char → List (List Char)
  | [] => [[]]
  | ch :: rest =>
    match splitOnChar c rest with
    | [] => [[ch]]
    | g :: gs => if ch = c then [] :: g :: gs else (ch :: g) :: gs

/-- Python `' '.join(parts)`. -/
def joinSpace : List (List Char) → List Char
  | [] => []
  | [x] => x
  | x :: y :: rest => x ++ ' ' :: joinSpace (y :: rest)

/-- Python `text.count(p)` for a two-character pattern `p = [a, b]` whose two
characters differ (then non-overlapping count = number of positions). -/
def countPair (a b : Char) : List Char → ℕ
  | [] => 0
  | [_] => 0
  | x :: y :: rest =>
    (if x = a ∧ y = b then 1 else 0) + countPair a b (y :: rest)

/-- Whether `pat` occurs at the start of `l`. -/
def beginsWith : List Char → List Char → Bool
  | [], _ => true
  | _ :: _, [] => false
  | p :: ps, c :: cs => p = c && beginsWith ps cs

/-- Python `pat in text` for strings: substring occurrence (the empty pattern
occurs in every text). -/
def containsSeq (pat : List Char) (text : List Char) : Bool :=
  match text with
  | [] => pat.isEmpty
  | _ :: rest => beginsWith pat text || containsSeq pat rest

/-- Python `max(iterable, default=d)`. -/
def pyMax (l : List ℚ) (d : ℚ) : ℚ :=
  match l with
  | [] => d
  | x :: xs => xs.foldl max x

/-- Round a rational to the nearest integer, ties to even (the semantics of
Python `round`). -/
def roundHalfEven (q : ℚ) : ℤ :=
  let f := ⌊q⌋
  let r := q - f
  if r < 1/2 then f
  else if 1/2 < r then f + 1
  else if f % 2 = 0 then f else f + 1

/-- Python `round(x, 3)` on the rational model of floats. -/
def round3 (q : ℚ) : ℚ := (roundHalfEven (q * 1000) : ℚ) / 1000

/-- Python `round(x, 1)` on the rational model of floats. -/
def round1 (q : ℚ) : ℚ := (roundHalfEven (q * 10) : ℚ) / 10

/-- Stable insertion of `x` into `l`, placing `x` before the first element
whose key is `≤ key x`.  `insertDescBy key x (sortDescBy key l)` realises one
step of a stable descending sort. -/
def insertDescBy {α β : Type} [LinearOrder β] (key : α → β) (x : α) :
    List α → List α
  | [] => [x]
  | y :: ys => if key y ≤ key x then x :: y :: ys else y :: insertDescBy key x ys

/-- Stable sort, descending by `key`: the model of CPython `list.sort` with
`reverse=True` (CPython's sort is stable, so any stable sorting algorithm is
observationally identical). -/
def sortDescBy {α β : Type} [LinearOrder β] (key : α → β) : List α → List α
  | [] => []
  | x :: xs => insertDescBy key x (sortDescBy key xs)

/-! ## Evidence segmenter: `segment_jd`
(src/backend/services/evidence_segmenter.py) -/

/-- One evidence segment: `{"id": "JD#n", "text": ...}`. -/
structure Seg where
  id : String
  text : List Char
deriving DecidableEq, Repr

/-- A character matched by the bullet/number marker class `[-•\*\d\.\)]`. -/
def isMarker (c : Char) : Bool :=
  c = '-' || c = '•' || c = '*' || c.isDigit || c = '.' || c = ')'

/-- Python `re.sub(r'^[-•\*\d\.\)]+\s*', '', line)`: if the line starts with a
marker character, drop the leading run of marker characters and the following
whitespace run; otherwise the line is unchanged. -/
def cleanLine (l : List Char) : List Char :=
  match l with
  | [] => []
  | c :: _ => if isMarker c then (l.dropWhile isMarker).dropWhile isPySpace else l

/-- Python `str.isupper()` on the ASCII fragment: at least one cased character
and no lowercase character. -/
def isUpperPy (l : List Char) : Bool :=
  l.any (fun c => c.isUpper) && l.all (fun c => !c.isLower)

/-- After a leading digit run, `re.match(r'^\d+[\.\)]', line)` requires the
next character to be `.` or `)`. -/
def afterDigits : List Char → Bool
  | [] => false
  | c :: rest => if c.isDigit then afterDigits rest else c = '.' || c = ')'

/-- Python `re.match(r'^\d+[\.\)]', line)`: one or more digits followed by
`.` or `)`, anchored at the start. -/
def startsNumbered : List Char → Bool
  | [] => false
  | c :: rest => c.isDigit && afterDigits rest

/-- The `is_new_segment` heuristic of `segment_jd`: bullet, numbered item,
ALL-CAPS line, or a short line ending in a colon. -/
def isNewSegmentJD (s : List Char) : Bool :=
  beginsWith ['-'] s || beginsWith ['•'] s || beginsWith ['*'] s ||
  startsNumbered s || isUpperPy s ||
  (decide (s.length < 60) && decide (s.getLast? = some ':'))

/-- Closing the current accumulated segment: emit the space-joined text if it
is strictly longer than 20 characters, else nothing (`if len(text) > 20`). -/
def flushJD (cur : List (List Char)) : List (List Char) :=
  if cur = [] then []
  else if 20 < (joinSpace cur).length then [joinSpace cur] else []

/-- Append the cleaned line to the current segment; an empty cleaned line is
not appended (`if clean_line: current_segment.append(clean_line)`). -/
def appendClean (s : List Char) (cur : List (List Char)) : List (List Char) :=
  let c := cleanLine s
  if c = [] then cur else cur ++ [c]

/-- The line-scanning loop of `segment_jd`: a blank line closes the current
segment; a line matching the new-segment heuristic closes the current segment
and starts a new one; every non-blank line contributes its cleaned text. -/
def jdGo : List (List Char) → List (List Char) → List (List Char)
  | [], cur => flushJD cur
  | l :: ls, cur =>
    let s := pyStrip l
    if s = [] then flushJD cur ++ jdGo ls []
    else if isNewSegmentJD s ∧ cur ≠ [] then
      flushJD cur ++ jdGo ls (appendClean s [])
    else jdGo ls (appendClean s cur)

/-- The segment texts produced by `segment_jd`, in scan order. -/
def jdSegTexts (t : List Char) : List (List Char) :=
  jdGo (splitOnChar '\n' t) []

/-- Assign ids `"JD#n"`, `"JD#(n+1)"`, ... in order.  In the source,
`segment_id` starts at 1 and is incremented exactly when a segment is
appended, so ids are consecutive positions. -/
def numberFrom (n : ℕ) : List (List Char) → List Seg
  | [] => []
  | t :: ts => ⟨"JD#" ++ toString n, t⟩ :: numberFrom (n + 1) ts

/-- `segment_jd(jd_text)`: split into lines, scan, and number the surviving
segments `JD#1, JD#2, ...`. -/
def segment_jd (t : List Char) : List Seg :=
  numberFrom 1 (jdSegTexts t)

/-! ## Keyword retrieval: `find_candidate_segments`
(src/backend/services/evidence_segmenter.py) -/

/-- A lowercase ASCII letter. -/
def isLowerAZ (c : Char) : Bool := 'a' ≤ c && c ≤ 'z'

/-- A character that keeps a regex word boundary from holding next to a
lowercase run in lowercased text: digits and underscore (uppercase letters
cannot occur after `str.lower()` on ASCII text). -/
def killsBoundary (c : Char) : Bool := c.isDigit || c = '_'

/-- Scan for the matches of `re.findall(r'\b[a-z]{3,}\b', req_lower)`:
maximal runs of lowercase letters, of length at least 3, whose neighbouring
characters (if any) are not word characters.  `leftOk` records whether the
run being accumulated in `cur` started at a word boundary. -/
def kwGo : Bool → List Char → List Char → List (List Char)
  | leftOk, cur, [] => if leftOk ∧ 3 ≤ cur.length then [cur] else []
  | leftOk, cur, c :: rest =>
    if isLowerAZ c then kwGo leftOk (cur ++ [c]) rest
    else
      (if leftOk ∧ 3 ≤ cur.length ∧ ¬ killsBoundary c then [cur] else []) ++
      kwGo (!killsBoundary c) [] rest

/-- `req_keywords = set(re.findall(r'\b[a-z]{3,}\b', requirement.lower()))`:
the distinct keywords of a requirement (order is irrelevant, only membership
counts are used). -/
def reqKeywords (req : List Char) : List (List Char) :=
  (kwGo true [] (req.map Char.toLower)).dedup

/-- The per-segment relevance score: the number of distinct requirement
keywords occurring in the lowercased segment text, plus a bonus of 5 when the
first 20 characters of the requirement occur verbatim (case-insensitively). -/
def segMatchScore (req : List Char) (seg : Seg) : ℕ :=
  let textLower := seg.text.map Char.toLower
  let reqLower := req.map Char.toLower
  ((reqKeywords req).filter (fun kw => containsSeq kw textLower)).length +
    (if containsSeq (reqLower.take 20) textLower then 5 else 0)

/-- A segment together with its `match_score` (`{**seg, "match_score": m}`). -/
structure ScoredSeg where
  id : String
  text : List Char
  match_score : ℕ
deriving DecidableEq, Repr

/-- `find_candidate_segments(requirement, segments, top_k)`: keep the segments
with a strictly positive score, sort them by score descending (stable), and
return the first `top_k`. -/
def find_candidate_segments (req : List Char) (segs : List Seg) (topK : ℕ) :
    List ScoredSeg :=
  let scored := segs.filterMap (fun s =>
    let m := segMatchScore req s
    if 0 < m then some ⟨s.id, s.text, m⟩ else none)
  (sortDescBy (fun x => x.match_score) scored).take topK

/-! ## Resume index: `ResumeIndex.upsert_resume`
(src/backend/services/vector_store.py)

The chromadb collection is modelled by its documented contract, the one the
source relies on: a collection is a list of records keyed by id, and
`col.upsert` replaces the record stored under an existing id in place (no
duplicate, no merge) or appends a fresh record.  The embedding model and
sha256 are external capabilities, passed as parameters. -/

/-- The payload stored for one resume id: document text, metadata, vector. -/
structure StoredRec (μ : Type) where
  document : List Char
  metadata : μ
  embedding : List ℚ
deriving DecidableEq, Repr

/-- `col.upsert(ids=[rid], ...)` for a single id: replace in place, or append
when the id is absent. -/
def colUpsert {μ : Type} (rid : String) (rec : StoredRec μ) :
    List (String × StoredRec μ) → List (String × StoredRec μ)
  | [] => [(rid, rec)]
  | (k, v) :: rest =>
    if k = rid then (rid, rec) :: rest else (k, v) :: colUpsert rid rec rest

/-- `upsert_resume(resume_path, text, metadata)`: the id is the hash of the
path key, the stored vector is the embedding of `text`; returns the id and
the updated collection. -/
def upsert_resume {μ : Type} (embed : List Char → List ℚ)
    (hashId : String → String) (resume_path : String) (text : List Char)
    (metadata : μ) (col : List (String × StoredRec μ)) :
    String × List (String × StoredRec μ) :=
  let rid := hashId resume_path
  (rid, colUpsert rid ⟨text, metadata, embed text⟩ col)

/-! ## Grounded evaluator: stage 1 and stage 2
(src/backend/services/grounded_rag.py)

The completion service (`call_mistral`) plus the `json.loads` of its output
are modelled as a parameter delivering either a parsed structured value or an
error message: `call_mistral` itself returns text, and the pipeline observes
it only through `json.loads`, whose failure (or any other exception in the
`try` body) lands in the `except` arm.  Prompt strings flow only into the
external call and are not modelled. -/

/-- One evidence citation `{"id": "JD#N", "quote": "..."}`. -/
structure EvidenceRef where
  id : String
  quote : List Char
deriving DecidableEq, Repr

/-- One requirement as parsed from the stage-1 completion output. -/
structure JDRequirement where
  requirement : List Char
  reqType : String
  category : String
  jd_evidence : List EvidenceRef
deriving DecidableEq, Repr

/-- The parsed stage-1 JSON payload. -/
structure Stage1Json where
  jd_requirements : List JDRequirement
deriving DecidableEq, Repr

/-- The stage-1 result dict: `{"jd_requirements": ..., "warnings": ...}`. -/
structure Stage1Result where
  jd_requirements : List JDRequirement
  warnings : List String
deriving DecidableEq, Repr

/-- The warning for a short JD (`len(jd_text) < 400`). -/
def shortJDWarning : String :=
  "JD text seems short (< 400 chars). Paste full responsibilities + requirements for better analysis."

/-- The warning for few bullet points (`bullet_count < 5`). -/
def fewBulletsWarning : String :=
  "JD has few bullet points (< 5). More detailed JDs produce better matches."

/-- `bullet_count = jd_text.count('\n-') + jd_text.count('\n•') + jd_text.count('\n*')`. -/
def bulletCount (t : List Char) : ℕ :=
  countPair '\n' '-' t + countPair '\n' '•' t + countPair '\n' '*' t

/-- The heuristic quality warnings computed before the completion call. -/
def heuristicWarnings (t : List Char) : List String :=
  (if t.length < 400 then [shortJDWarning] else []) ++
  (if bulletCount t < 5 then [fewBulletsWarning] else [])

/-- `stage1_extract_jd_requirements(jd_text, jd_segments)`.  On a parsed
response the payload is returned with `result["warnings"] = warnings`; on a
parse (or any other) failure the requirement list is empty and a diagnostic
is appended to the heuristic warnings.  The function is total: no exception
reaches the caller. -/
def stage1_extract_jd_requirements (jd_text : List Char) (_jd_segments : List Seg)
    (response : Except String Stage1Json) : Stage1Result :=
  let warnings := heuristicWarnings jd_text
  match response with
  | .ok parsed => ⟨parsed.jd_requirements, warnings⟩
  | .error e => ⟨[], warnings ++ ["Failed to parse JD requirements: " ++ e]⟩

/-- The parsed stage-2 JSON payload for one requirement; every field is read
through `.get(..., default)`. -/
structure EvalJson where
  status : Option String
  confidence : Option ℚ
  resume_evidence : Option (List EvidenceRef)
  notes : Option String
deriving DecidableEq, Repr

/-- One entry of `match_evaluation`. -/
structure MatchEval where
  requirement : List Char
  status : String
  confidence : ℚ
  jd_evidence : List EvidenceRef
  resume_evidence : List EvidenceRef
  notes : String
deriving DecidableEq, Repr

/-- The evaluation appended when `find_candidate_segments` returns nothing:
`status="missing"`, `confidence=0.3`, no resume evidence, and no completion
call. -/
def noSegmentsEval (req : JDRequirement) : MatchEval :=
  ⟨req.requirement, "missing", 3/10, req.jd_evidence, [],
   "No relevant resume segments found for this requirement"⟩

/-- The evaluation appended when the completion call or its JSON parse fails
for one requirement: degrade to `missing` with a diagnostic note. -/
def errorEval (req : JDRequirement) (e : String) : MatchEval :=
  ⟨req.requirement, "missing", 3/10, req.jd_evidence, [],
   "Evaluation error: " ++ e⟩

/-- The evaluation built from a parsed completion response
(defaults: `missing`, `0.5`, `[]`, `""`). -/
def parsedEval (req : JDRequirement) (j : EvalJson) : MatchEval :=
  ⟨req.requirement, j.status.getD "missing", j.confidence.getD (1/2),
   req.jd_evidence, j.resume_evidence.getD [], j.notes.getD ""⟩

/-- One iteration of the stage-2 loop for the requirement at position `i`:
short-circuit when no candidate segments are found, otherwise consult the
completion service (modelled by `oracle i`). -/
def stage2EvalOne (oracle : ℕ → Except String EvalJson)
    (resume_segments : List Seg) (i : ℕ) (req : JDRequirement) : MatchEval :=
  if find_candidate_segments req.requirement resume_segments 5 = [] then
    noSegmentsEval req
  else
    match oracle i with
    | .ok j => parsedEval req j
    | .error e => errorEval req e

/-- The stage-2 loop over the requirement list, appending one evaluation per
requirement in order. -/
def stage2Go (oracle : ℕ → Except String EvalJson) (resume_segments : List Seg) :
    ℕ → List JDRequirement → List MatchEval
  | _, [] => []
  | i, r :: rs =>
    stage2EvalOne oracle resume_segments i r ::
      stage2Go oracle resume_segments (i + 1) rs

/-- `stage2_evaluate_match(jd_requirements, resume_segments, resume_facts)`:
iterate over `jd_requirements[:15]` (`resume_facts` flows only into the
prompt, which is external).  Returns the `match_evaluation` list. -/
def stage2_evaluate_match (oracle : ℕ → Except String EvalJson)
    (jd_requirements : List JDRequirement) (resume_segments : List Seg) :
    List MatchEval :=
  stage2Go oracle resume_segments 0 (jd_requirements.take 15)

/-- The positions of the requirements for which stage 2 issues a completion
call: exactly those with at least one candidate segment. -/
def stage2CallsGo (resume_segments : List Seg) :
    ℕ → List JDRequirement → List ℕ
  | _, [] => []
  | i, r :: rs =>
    (if find_candidate_segments r.requirement resume_segments 5 = [] then []
     else [i]) ++ stage2CallsGo resume_segments (i + 1) rs

/-- The positions (into `jd_requirements[:15]`) whose evaluation invokes the
completion service. -/
def stage2Calls (jd_requirements : List JDRequirement)
    (resume_segments : List Seg) : List ℕ :=
  stage2CallsGo resume_segments 0 (jd_requirements.take 15)

/-! ## Multi-signal scorer: `score_and_rank`
(src/backend/services/scorer.py)

`embed_one` (sentence-transformers), `cosine_similarity` (sklearn) and
`fuzz.token_set_ratio` (rapidfuzz) are external capabilities, passed as
parameters; the embedding call can raise, which the source does not catch, so
it is modelled as `Except`. -/

/-- Lexicographic comparison of character lists by code point, the order
Python `sorted` uses on strings. -/
def lexLe : List Char → List Char → Bool
  | [], _ => true
  | _ :: _, [] => false
  | a :: as, b :: bs => if a = b then lexLe as bs else decide (a < b)

/-- Insertion step of an ascending string sort. -/
def insertAscStr (x : String) : List String → List String
  | [] => [x]
  | y :: ys => if lexLe x.data y.data then x :: y :: ys else y :: insertAscStr x ys

/-- Python `sorted(strings)`: ascending lexicographic sort. -/
def sortAscStr : List String → List String
  | [] => []
  | x :: xs => insertAscStr x (sortAscStr xs)

/-- Python set intersection on list-represented sets: the distinct elements
of `a` that also occur in `b` (`len` and `sorted(list(...))` of the result
match `set(a) & set(b)`). -/
def setInter (a b : List String) : List String :=
  a.dedup.filter (fun x => x ∈ b)

/-- Python `x or y` on two optional strings (an empty string is falsy). -/
def pyOr (a b : Option String) : Option String :=
  match a with
  | some s => if s = "" then b else some s
  | none => b

/-- The JD-side fields read from `jd_info` via `.get`. -/
structure JDInfo where
  skills : Option (List String)
  title : Option String
  years : Option ℚ
deriving DecidableEq, Repr

/-- The candidate fields read from `c["fields"]` via `.get`. -/
structure CandFields where
  skills : Option (List String)
  titles : Option (List String)
  years_exp : Option ℚ
deriving DecidableEq, Repr

/-- One candidate dict handed to `score_and_rank`. -/
structure Candidate where
  text : List Char
  fields : CandFields
  path : Option String
  id : Option String
deriving DecidableEq, Repr

/-- One ranked result dict (the `highlights` sub-dict is flattened into the
two fields `skills_found` and `years_experience_est`). -/
structure RankedEntry where
  resume_id : Option String
  candidate_name : Option String
  score : ℚ
  why : List String
  skills_found : List String
  years_experience_est : ℚ
deriving DecidableEq, Repr

/-- The f-string `f"Experience aligns ({years} yrs)"`. -/
def expAlignsMsg (years : ℚ) : String := s!"Experience aligns ({years} yrs)"

/-- The loop body of `score_and_rank` for one candidate: embed the resume
text, compute the four signals, the weighted score rounded to 3 decimals, up
to 3 explanation strings and the highlights. -/
def scoreCandidate (embed : List Char → Except String (List ℚ))
    (cosSim : List ℚ → List ℚ → ℚ) (fuzz : String → String → ℚ)
    (jdVec : List ℚ) (jdSkills : List String) (jdTitle : String)
    (jdYears : ℚ) (c : Candidate) : Except String RankedEntry := do
  let rVec ← embed c.text
  let skills := c.fields.skills.getD []
  let titles := c.fields.titles.getD []
  let years := c.fields.years_exp.getD 0
  let sVec := cosSim jdVec rVec
  let inter := setInter jdSkills skills
  let sKw : ℚ :=
    if jdSkills.dedup = [] then 0
    else (inter.length : ℚ) / max 1 (jdSkills.dedup.length : ℚ)
  let sTitle := pyMax (titles.map (fun t => fuzz jdTitle t)) 0 / 100
  let sYrs := if jdYears = 0 then 0 else min years jdYears / jdYears
  let final := 0.55 * sVec + 0.25 * sKw + 0.15 * sTitle + 0.05 * sYrs
  let why :=
    (if 0.7 < sVec then ["High semantic match"] else []) ++
    (if inter ≠ [] then
      ["Skills overlap: " ++ String.intercalate ", " ((sortAscStr inter).take 5)]
     else []) ++
    (if 0.6 < sTitle then ["Title closely matches JD"] else []) ++
    (if 0 < sYrs then [expAlignsMsg years] else [])
  return ⟨pyOr c.path c.id, none, round3 final, why.take 3,
          (sortAscStr inter).take 10, years⟩

/-- `score_and_rank(jd_text, jd_info, candidates)`: embed the JD, score every
candidate, and sort the results by score descending (CPython's stable sort).
An uncaught embedding failure aborts the whole call. -/
def score_and_rank (embed : List Char → Except String (List ℚ))
    (cosSim : List ℚ → List ℚ → ℚ) (fuzz : String → String → ℚ)
    (jd_text : List Char) (jd_info : JDInfo) (candidates : List Candidate) :
    Except String (List RankedEntry) := do
  let jdVec ← embed jd_text
  let jdSkills := jd_info.skills.getD []
  let jdTitle := jd_info.title.getD "software engineer"
  let jdYears := jd_info.years.getD 0
  let results ← candidates.mapM
    (scoreCandidate embed cosSim fuzz jdVec jdSkills jdTitle jdYears)
  return sortDescBy (fun e => e.score) results

/-! ## RAG search result assembly: `rag_search_resumes`
(src/backend/services/rag_engine.py, lines 26-50)

The hit-processing loop of `rag_search_resumes`: the index query and the LLM
insight generation are external; the loop zips the parallel result lists of
the chromadb query and builds one resume dict per hit. -/

/-- The metadata dict of one stored resume, as read back via `.get`. -/
structure ChromaMeta where
  skills : Option (List Char)
  titles : Option (List Char)
  category : Option String
  years : Option ℚ
  filename : Option String
deriving DecidableEq, Repr

/-- One search-result dict (the `metadata` sub-dict is flattened). -/
structure ResumeHit where
  id : String
  text : List Char
  category : String
  skills : List String
  titles : List String
  years : ℚ
  filename : String
  similarity_score : ℚ
deriving DecidableEq, Repr

/-- `[s.strip() for s in raw.split(",") if s.strip()] if raw else []`. -/
def parseCommaSeparated (raw : List Char) : List String :=
  if raw = [] then []
  else (((splitOnChar ',' raw).map pyStrip).filter (fun p => p ≠ [])).map
    (fun p => String.mk p)

/-- The body of the hit loop: one resume dict, with similarity reported as
`round((1 - dist) * 100, 1)`. -/
def mkResumeHit (rid : String) (text : List Char) (meta : ChromaMeta)
    (dist : ℚ) : ResumeHit :=
  ⟨rid, text,
   meta.category.getD "N/A",
   parseCommaSeparated (meta.skills.getD []),
   parseCommaSeparated (meta.titles.getD []),
   meta.years.getD 0,
   meta.filename.getD rid,
   round1 ((1 - dist) * 100)⟩

/-- The hit loop of `rag_search_resumes`:
`for rid, text, meta, dist in zip(ids, docs, metas, distances)` (Python `zip`
stops at the shortest list). -/
def rag_search_resumes_hits :
    List String → List (List Char) → List ChromaMeta → List ℚ → List ResumeHit
  | rid :: ids, t :: docs, m :: metas, d :: dists =>
    mkResumeHit rid t m d :: rag_search_resumes_hits ids docs metas dists
  | _, _, _, _ => []

/-! ## Lemmas about the stable descending sort -/

theorem mem_insertDescBy {α β : Type} [LinearOrder β] (key : α → β) (x a : α)
    (l : List α) : a ∈ insertDescBy key x l ↔ a = x ∨ a ∈ l := by
  induction l with
  | nil => simp [insertDescBy]
  | cons y ys ih =>
    by_cases h : key y ≤ key x
    · simp [insertDescBy, h]
    · simp only [insertDescBy, if_neg h, List.mem_cons, ih]
      tauto

theorem mem_sortDescBy {α β : Type} [LinearOrder β] (key : α → β) (a : α)
    (l : List α) : a ∈ sortDescBy key l ↔ a ∈ l := by
  induction l with
  | nil => simp [sortDescBy]
  | cons x xs ih => simp [sortDescBy, mem_insertDescBy, ih]

theorem pairwise_insertDescBy {α β : Type} [LinearOrder β] (key : α → β)
    (x : α) (l : List α)
    (h : l.Pairwise (fun a b => key b ≤ key a)) :
    (insertDescBy key x l).Pairwise (fun a b => key b ≤ key a) := by
  induction l with
  | nil => simp [insertDescBy]
  | cons y ys ih =>
    rcases List.pairwise_cons.mp h with ⟨hy, hys⟩
    by_cases hk : key y ≤ key x
    · rw [insertDescBy, if_pos hk]
      refine List.pairwise_cons.mpr ⟨?_, List.pairwise_cons.mpr ⟨hy, hys⟩⟩
      intro b hb
      rcases List.mem_cons.mp hb with rfl | hb
      · exact hk
      · exact le_trans (hy b hb) hk
    · rw [insertDescBy, if_neg hk]
      refine List.pairwise_cons.mpr ⟨?_, ih hys⟩
      intro b hb
      rcases (mem_insertDescBy key x b ys).mp hb with rfl | hb
      · exact le_of_lt (lt_of_not_le hk)
      · exact hy b hb

theorem pairwise_sortDescBy {α β : Type} [LinearOrder β] (key : α → β)
    (l : List α) :
    (sortDescBy key l).Pairwise (fun a b => key b ≤ key a) := by
  induction l with
  | nil => simp [sortDescBy]
  | cons x xs ih => exact pairwise_insertDescBy key x _ ih

theorem filter_insertDescBy_of_eq {α β : Type} [LinearOrder β] [DecidableEq β]
    (key : α → β) (x : α) (l : List α) (s : β) (hx : key x = s) :
    (insertDescBy key x l).filter (fun a => key a = s) =
      x :: l.filter (fun a => key a = s) := by
  induction l with
  | nil => simp [insertDescBy, hx]
  | cons y ys ih =>
    by_cases h : key y ≤ key x
    · rw [insertDescBy, if_pos h, List.filter_cons, List.filter_cons]
      simp only [decide_eq_true_eq]
      rw [if_pos hx]
    · have hy : ¬ (key y = s) := by
        intro hs
        exact h (by rw [hx, ← hs])
      rw [insertDescBy, if_neg h, List.filter_cons, List.filter_cons]
      simp only [decide_eq_true_eq]
      rw [if_neg hy, if_neg hy]
      exact ih

theorem filter_insertDescBy_of_ne {α β : Type} [LinearOrder β] [DecidableEq β]
    (key : α → β) (x : α) (l : List α) (s : β) (hx : key x ≠ s) :
    (insertDescBy key x l).filter (fun a => key a = s) =
      l.filter (fun a => key a = s) := by
  induction l with
  | nil => simp [insertDescBy, hx]
  | cons y ys ih =>
    by_cases h : key y ≤ key x
    · rw [insertDescBy, if_pos h, List.filter_cons, List.filter_cons]
      simp only [decide_eq_true_eq]
      rw [if_neg hx]
    · rw [insertDescBy, if_neg h, List.filter_cons, List.filter_cons]
      by_cases hy : key y = s
      · simp only [decide_eq_true_eq]
        rw [if_pos hy, if_pos hy, ih]
      · simp only [decide_eq_true_eq]
        rw [if_neg hy, if_neg hy]
        exact ih

theorem filter_sortDescBy {α β : Type} [LinearOrder β] [DecidableEq β]
    (key : α → β) (l : List α) (s : β) :
    (sortDescBy key l).filter (fun a => key a = s) =
      l.filter (fun a => key a = s) := by
  induction l with
  | nil => simp [sortDescBy]
  | cons x xs ih =>
    by_cases hx : key x = s
    · rw [sortDescBy, filter_insertDescBy_of_eq key x _ s hx, ih,
        List.filter_cons]
      simp [hx]
    · rw [sortDescBy, filter_insertDescBy_of_ne key x _ s hx, ih,
        List.filter_cons]
      simp [hx]

/-! ## Lemmas about `Except`-valued traversal -/

theorem exceptBind_ok {ε α β : Type} {x : Except ε α} {g : α → Except ε β}
    {b : β} (h : x >>= g = .ok b) : ∃ a, x = .ok a ∧ g a = .ok b := by
  cases x with
  | error e => simp [Bind.bind, Except.bind] at h
  | ok a => exact ⟨a, rfl, by simpa [Bind.bind, Except.bind] using h⟩

theorem mapM_ok_mem {ε α β : Type} (f : α → Except ε β) (l : List α)
    (out : List β) (h : l.mapM f = .ok out) (c : α) (hc : c ∈ l) :
    ∃ e, f c = .ok e ∧ e ∈ out := by
  induction l generalizing out with
  | nil => cases hc
  | cons a as ih =>
    rw [List.mapM_cons] at h
    obtain ⟨b, hb, h2⟩ := exceptBind_ok h
    obtain ⟨bs, hbs, h3⟩ := exceptBind_ok h2
    have hout : out = b :: bs := by
      simpa [Pure.pure, Except.pure] using h3.symm
    subst hout
    rcases List.mem_cons.mp hc with rfl | hc
    · exact ⟨b, hb, List.mem_cons_self _ _⟩
    · obtain ⟨e, he, hmem⟩ := ih bs hbs hc
      exact ⟨e, he, List.mem_cons_of_mem _ hmem⟩

theorem exceptBind_okHead {ε α β : Type} (a : α) (g : α → Except ε β) :
    ((Except.ok a : Except ε α) >>= g) = g a := rfl

theorem exceptBind_errHead {ε α β : Type} (e : ε) (g : α → Except ε β) :
    ((Except.error e : Except ε α) >>= g) = .error e := rfl

theorem mapM_error_of_mem {ε α β : Type} (f : α → Except ε β) (l : List α)
    (c : α) (hc : c ∈ l) (e : ε) (he : f c = .error e) :
    ∃ msg, l.mapM f = .error msg := by
  induction l with
  | nil => cases hc
  | cons a as ih =>
    rw [List.mapM_cons]
    rcases List.mem_cons.mp hc with rfl | hc
    · exact ⟨e, by rw [he, exceptBind_errHead]⟩
    · cases ha : f a with
      | error e' => exact ⟨e', by rw [exceptBind_errHead]⟩
      | ok b =>
        obtain ⟨msg, hmsg⟩ := ih hc
        exact ⟨msg, by rw [exceptBind_okHead, hmsg, exceptBind_errHead]⟩

/-! ## Lemmas about the segmenter -/

theorem splitOnChar_ne_nil (c : Char) (l : List Char) :
    splitOnChar c l ≠ [] := by
  cases l with
  | nil => simp [splitOnChar]
  | cons ch rest =>
    rw [splitOnChar]
    cases h : splitOnChar c rest with
    | nil => simp
    | cons g gs =>
      by_cases hc : ch = c <;> simp [hc]

theorem splitOnChar_sep_cons (c : Char) (l : List Char) :
    splitOnChar c (c :: l) = [] :: splitOnChar c l := by
  rw [splitOnChar]
  cases h : splitOnChar c l with
  | nil => exact absurd h (splitOnChar_ne_nil c l)
  | cons g gs => simp

theorem splitOnChar_cons_ne (c ch : Char) (l : List Char) (hch : ch ≠ c) :
    splitOnChar c (ch :: l) =
      (ch :: (splitOnChar c l).headI) :: (splitOnChar c l).tail := by
  rw [splitOnChar]
  cases h : splitOnChar c l with
  | nil => exact absurd h (splitOnChar_ne_nil c l)
  | cons g gs => simp [hch]

theorem splitOnChar_append_sep (c : Char) (xs ys : List Char) :
    splitOnChar c (xs ++ c :: ys) = splitOnChar c xs ++ splitOnChar c ys := by
  induction xs with
  | nil =>
    rw [List.nil_append, splitOnChar_sep_cons]
    rfl
  | cons z txs ih =>
    by_cases hc : z = c
    · subst hc
      rw [List.cons_append, splitOnChar_sep_cons, splitOnChar_sep_cons, ih,
        List.cons_append]
    · rw [List.cons_append, splitOnChar_cons_ne c z _ hc,
        splitOnChar_cons_ne c z _ hc, ih]
      cases h : splitOnChar c txs with
      | nil => exact absurd h (splitOnChar_ne_nil c txs)
      | cons g gs => simp [h]

theorem splitOnChar_of_not_mem (c : Char) (l : List Char)
    (h : ∀ x ∈ l, x ≠ c) : splitOnChar c l = [l] := by
  induction l with
  | nil => rfl
  | cons ch rest ih =>
    have hch : ch ≠ c := h ch (List.mem_cons_self _ _)
    rw [splitOnChar_cons_ne c ch rest hch,
      ih (fun x hx => h x (List.mem_cons_of_mem _ hx))]
    rfl

theorem mem_flushJD (cur : List (List Char)) (x : List Char)
    (hx : x ∈ flushJD cur) : 20 < x.length := by
  rw [flushJD] at hx
  by_cases h0 : cur = []
  · rw [if_pos h0] at hx
    cases hx
  · rw [if_neg h0] at hx
    by_cases h : 20 < (joinSpace cur).length
    · rw [if_pos h] at hx
      rcases List.mem_singleton.mp hx with rfl
      exact h
    · rw [if_neg h] at hx
      cases hx

theorem mem_jdGo (lines : List (List Char)) (cur : List (List Char))
    (x : List Char) (hx : x ∈ jdGo lines cur) : 20 < x.length := by
  induction lines generalizing cur with
  | nil => exact mem_flushJD cur x hx
  | cons l ls ih =>
    rw [jdGo] at hx
    by_cases hs : pyStrip l = []
    · rw [if_pos hs] at hx
      rcases List.mem_append.mp hx with h | h
      · exact mem_flushJD cur x h
      · exact ih _ h
    · rw [if_neg hs] at hx
      by_cases hn : isNewSegmentJD (pyStrip l) ∧ cur ≠ []
      · rw [if_pos hn] at hx
        rcases List.mem_append.mp hx with h | h
        · exact mem_flushJD cur x h
        · exact ih _ h
      · rw [if_neg hn] at hx
        exact ih _ hx

theorem jdGo_append_blank (ls1 ls2 : List (List Char))
    (cur : List (List Char)) :
    jdGo (ls1 ++ [] :: ls2) cur = jdGo ls1 cur ++ jdGo ls2 [] := by
  induction ls1 generalizing cur with
  | nil =>
    rw [List.nil_append, jdGo, jdGo]
    simp [pyStrip]
  | cons l ls ih =>
    rw [List.cons_append, jdGo, jdGo]
    by_cases hs : pyStrip l = []
    · rw [if_pos hs, if_pos hs, ih, List.append_assoc]
    · rw [if_neg hs, if_neg hs]
      by_cases hn : isNewSegmentJD (pyStrip l) ∧ cur ≠ []
      · rw [if_pos hn, if_pos hn, ih, List.append_assoc]
      · rw [if_neg hn, if_neg hn, ih]

theorem numberFrom_append (n : ℕ) (a b : List (List Char)) :
    numberFrom n (a ++ b) = numberFrom n a ++ numberFrom (n + a.length) b := by
  induction a generalizing n with
  | nil => simp [numberFrom]
  | cons t ts ih =>
    rw [List.cons_append, numberFrom, numberFrom, ih]
    simp only [List.length_cons, List.cons_append, List.cons.injEq, true_and]
    congr 2
    omega

theorem mem_numberFrom (n : ℕ) (ts : List (List Char)) (seg : Seg)
    (h : seg ∈ numberFrom n ts) : seg.text ∈ ts := by
  induction ts generalizing n with
  | nil => cases h
  | cons t rest ih =>
    rw [numberFrom] at h
    rcases List.mem_cons.mp h with rfl | h
    · exact List.mem_cons_self _ _
    · exact List.mem_cons_of_mem _ (ih _ h)

/-! ## Bounds for rounding and `pyMax` -/

theorem roundHalfEven_bounds (q : ℚ) (B : ℤ) (h0 : 0 ≤ q) (hB : q ≤ B) :
    0 ≤ roundHalfEven q ∧ roundHalfEven q ≤ B := by
  have hf0 : 0 ≤ ⌊q⌋ := Int.le_floor.mpr (by exact_mod_cast h0)
  have hfB : ⌊q⌋ ≤ B := by
    have := Int.floor_le_floor hB
    simpa using this
  have hsucc : ¬ (q - ⌊q⌋ < 1/2) → ⌊q⌋ + 1 ≤ B := by
    intro hr
    rcases lt_or_eq_of_le hfB with h | h
    · omega
    · exfalso
      apply hr
      have : q - ⌊q⌋ ≤ 0 := by
        rw [h]
        have : q ≤ (B : ℚ) := hB
        linarith
      linarith
  rw [roundHalfEven]
  by_cases hr : q - ⌊q⌋ < 1/2
  · rw [if_pos hr]
    exact ⟨hf0, hfB⟩
  · rw [if_neg hr]
    by_cases hr2 : 1/2 < q - ⌊q⌋
    · rw [if_pos hr2]
      exact ⟨by omega, hsucc hr⟩
    · rw [if_neg hr2]
      by_cases he : ⌊q⌋ % 2 = 0
      · rw [if_pos he]
        exact ⟨hf0, hfB⟩
      · rw [if_neg he]
        exact ⟨by omega, hsucc hr⟩

theorem round1_bounds (x : ℚ) (h0 : 0 ≤ x) (h : x ≤ 100) :
    0 ≤ round1 x ∧ round1 x ≤ 100 := by
  have hb := roundHalfEven_bounds (x * 10) 1000 (by linarith)
    (by push_cast; linarith)
  rw [round1]
  constructor
  · apply div_nonneg _ (by norm_num)
    exact_mod_cast hb.1
  · rw [div_le_iff₀ (by norm_num : (0:ℚ) < 10)]
    have h2 : ((roundHalfEven (x * 10) : ℤ) : ℚ) ≤ 1000 := by
      exact_mod_cast hb.2
    linarith

theorem foldl_max_bounds (lo hi : ℚ) (xs : List ℚ) (acc : ℚ)
    (hacc : lo ≤ acc ∧ acc ≤ hi) (h : ∀ v ∈ xs, lo ≤ v ∧ v ≤ hi) :
    lo ≤ xs.foldl max acc ∧ xs.foldl max acc ≤ hi := by
  induction xs generalizing acc with
  | nil => exact hacc
  | cons x xs ih =>
    rw [List.foldl_cons]
    refine ih (max acc x) ⟨?_, ?_⟩ (fun v hv => h v (List.mem_cons_of_mem _ hv))
    · exact le_max_of_le_left hacc.1
    · exact max_le hacc.2 (h x (List.mem_cons_self _ _)).2

theorem pyMax_bounds (l : List ℚ) (d lo hi : ℚ) (hd : lo ≤ d ∧ d ≤ hi)
    (h : ∀ v ∈ l, lo ≤ v ∧ v ≤ hi) : lo ≤ pyMax l d ∧ pyMax l d ≤ hi := by
  cases l with
  | nil => exact hd
  | cons x xs =>
    rw [pyMax]
    exact foldl_max_bounds lo hi xs x (h x (List.mem_cons_self _ _))
      (fun v hv => h v (List.mem_cons_of_mem _ hv))

/-! ## Lemmas about stage 2 -/

theorem stage2Go_length (oracle : ℕ → Except String EvalJson)
    (segs : List Seg) (i : ℕ) (l : List JDRequirement) :
    (stage2Go oracle segs i l).length = l.length := by
  induction l generalizing i with
  | nil => rfl
  | cons r rs ih => simp [stage2Go, ih]

theorem stage2Go_get (oracle : ℕ → Except String EvalJson) (segs : List Seg)
    (l : List JDRequirement) (i j : ℕ) (hj : j < l.length)
    (hj2 : j < (stage2Go oracle segs i l).length) :
    (stage2Go oracle segs i l).get ⟨j, hj2⟩ =
      stage2EvalOne oracle segs (i + j) (l.get ⟨j, hj⟩) := by
  induction l generalizing i j with
  | nil => cases hj
  | cons r rs ih =>
    cases j with
    | zero => rfl
    | succ j =>
      have hj' : j < rs.length := Nat.lt_of_succ_lt_succ hj
      have hj2' : j < (stage2Go oracle segs (i + 1) rs).length := by
        rw [stage2Go_length]
        exact hj'
      have e1 : (stage2Go oracle segs i (r :: rs)).get ⟨j + 1, hj2⟩ =
          (stage2Go oracle segs (i + 1) rs).get ⟨j, hj2'⟩ := rfl
      have e2 : ((r :: rs).get ⟨j + 1, hj⟩) = rs.get ⟨j, hj'⟩ := rfl
      rw [e1, e2, ih (i + 1) j hj' hj2']
      congr 1
      omega

theorem mem_stage2CallsGo (segs : List Seg) (i n : ℕ)
    (l : List JDRequirement) :
    n ∈ stage2CallsGo segs i l ↔
      ∃ j, ∃ (hj : j < l.length), n = i + j ∧
        find_candidate_segments (l.get ⟨j, hj⟩).requirement segs 5 ≠ [] := by
  induction l generalizing i with
  | nil => simp [stage2CallsGo]
  | cons r rs ih =>
    rw [stage2CallsGo]
    constructor
    · intro h
      rcases List.mem_append.mp h with h | h
      · by_cases hc : find_candidate_segments r.requirement segs 5 = []
        · rw [if_pos hc] at h
          cases h
        · rw [if_neg hc] at h
          rcases List.mem_singleton.mp h with rfl
          exact ⟨0, Nat.succ_pos _, by omega, hc⟩
      · obtain ⟨j, hj, hn, hne⟩ := (ih (i + 1)).mp h
        exact ⟨j + 1, Nat.succ_lt_succ hj, by omega, hne⟩
    · rintro ⟨j, hj, rfl, hne⟩
      cases j with
      | zero =>
        apply List.mem_append.mpr
        left
        have hne' : find_candidate_segments r.requirement segs 5 ≠ [] := hne
        rw [if_neg hne']
        simp
      | succ j =>
        apply List.mem_append.mpr
        right
        apply (ih (i + 1)).mpr
        exact ⟨j, Nat.lt_of_succ_lt_succ hj, by omega, hne⟩

/-! ## Lemmas about `find_candidate_segments` -/

theorem mem_find_candidate_segments (req : List Char) (segs : List Seg)
    (k : ℕ) (s : ScoredSeg) (h : s ∈ find_candidate_segments req segs k) :
    0 < s.match_score ∧
      ∃ seg ∈ segs, s = ⟨seg.id, seg.text, segMatchScore req seg⟩ := by
  rw [find_candidate_segments] at h
  have h2 : s ∈ sortDescBy (fun x => x.match_score)
      (segs.filterMap (fun sg =>
        if 0 < segMatchScore req sg then
          some ⟨sg.id, sg.text, segMatchScore req sg⟩ else none)) :=
    (List.take_sublist _ _).mem h
  have h3 := (mem_sortDescBy _ _ _).mp h2
  obtain ⟨seg, hseg, hsome⟩ := List.mem_filterMap.mp h3
  by_cases hpos : 0 < segMatchScore req seg
  · rw [if_pos hpos] at hsome
    cases hsome
    exact ⟨hpos, seg, hseg, rfl⟩
  · rw [if_neg hpos] at hsome
    cases hsome

theorem segMatchScore_pos_iff (req : List Char) (seg : Seg) :
    0 < segMatchScore req seg ↔
      ((∃ kw ∈ reqKeywords req,
          containsSeq kw (seg.text.map Char.toLower) = true) ∨
        containsSeq ((req.map Char.toLower).take 20)
          (seg.text.map Char.toLower) = true) := by
  rw [segMatchScore]
  constructor
  · intro h
    by_cases hb : containsSeq ((req.map Char.toLower).take 20)
        (seg.text.map Char.toLower) = true
    · exact Or.inr hb
    · left
      rw [if_neg hb, Nat.add_zero] at h
      obtain ⟨kw, hkw⟩ := List.exists_mem_of_ne_nil _ (List.length_pos.mp h)
      have hf := List.mem_filter.mp hkw
      exact ⟨kw, hf.1, by simpa using hf.2⟩
  · intro h
    rcases h with ⟨kw, hkw, hocc⟩ | hb
    · apply Nat.lt_of_lt_of_le _ (Nat.le_add_right _ _)
      have hmem : kw ∈ List.filter
          (fun kw => containsSeq kw (seg.text.map Char.toLower))
          (reqKeywords req) := List.mem_filter.mpr ⟨hkw, by simpa using hocc⟩
      exact List.length_pos.mpr (List.ne_nil_of_mem hmem)
    · rw [if_pos hb]
      omega

theorem find_candidate_segments_eq_nil (req : List Char) (segs : List Seg)
    (k : ℕ) (h : ∀ seg ∈ segs, segMatchScore req seg = 0) :
    find_candidate_segments req segs k = [] := by
  rw [find_candidate_segments]
  have : segs.filterMap (fun sg =>
      if 0 < segMatchScore req sg then
        some ⟨sg.id, sg.text, segMatchScore req sg⟩ else none) =
      ([] : List ScoredSeg) := by
    rw [List.filterMap_eq_nil_iff]
    intro sg hsg
    rw [if_neg]
    rw [h sg hsg]
    omega
  rw [this]
  simp [sortDescBy]

/-! ## Lemmas about the resume index -/

theorem mem_keys_colUpsert {μ : Type} (rid k : String) (rec : StoredRec μ)
    (col : List (String × StoredRec μ))
    (h : k ∈ (colUpsert rid rec col).map Prod.fst) :
    k = rid ∨ k ∈ col.map Prod.fst := by
  induction col with
  | nil =>
    simp [colUpsert] at h
    exact Or.inl h
  | cons p rest ih =>
    obtain ⟨k1, v⟩ := p
    rw [colUpsert] at h
    by_cases hp : k1 = rid
    · rw [if_pos hp, List.map_cons] at h
      rcases List.mem_cons.mp h with h | h
      · exact Or.inl h
      · right
        rw [List.map_cons]
        exact List.mem_cons_of_mem _ h
    · rw [if_neg hp, List.map_cons] at h
      rcases List.mem_cons.mp h with h | h
      · right
        rw [List.map_cons, h]
        exact List.mem_cons_self _ _
      · rcases ih h with h | h
        · exact Or.inl h
        · right
          rw [List.map_cons]
          exact List.mem_cons_of_mem _ h

theorem nodup_keys_colUpsert {μ : Type} (rid : String) (rec : StoredRec μ)
    (col : List (String × StoredRec μ)) (h : (col.map Prod.fst).Nodup) :
    ((colUpsert rid rec col).map Prod.fst).Nodup := by
  induction col with
  | nil => simp [colUpsert]
  | cons p rest ih =>
    obtain ⟨k1, v⟩ := p
    rw [List.map_cons, List.nodup_cons] at h
    rw [colUpsert]
    by_cases hp : k1 = rid
    · rw [if_pos hp, List.map_cons, List.nodup_cons]
      exact ⟨hp ▸ h.1, h.2⟩
    · rw [if_neg hp, List.map_cons, List.nodup_cons]
      refine ⟨?_, ih h.2⟩
      intro hmem
      rcases mem_keys_colUpsert rid k1 rec rest hmem with h1 | h1
      · exact hp h1
      · exact h.1 h1

theorem filter_colUpsert {μ : Type} (rid : String) (rec : StoredRec μ)
    (col : List (String × StoredRec μ)) (h : (col.map Prod.fst).Nodup) :
    (colUpsert rid rec col).filter (fun r => r.1 = rid) = [(rid, rec)] := by
  induction col with
  | nil => simp [colUpsert]
  | cons p rest ih =>
    obtain ⟨k1, v⟩ := p
    rw [List.map_cons, List.nodup_cons] at h
    rw [colUpsert]
    by_cases hp : k1 = rid
    · rw [if_pos hp, List.filter_cons]
      have hrest : rest.filter (fun r => r.1 = rid) = [] := by
        rw [List.filter_eq_nil_iff]
        intro a ha
        simp only [decide_eq_true_eq]
        intro ha1
        have hma : a.1 ∈ rest.map Prod.fst := List.mem_map_of_mem Prod.fst ha
        rw [ha1, ← hp] at hma
        exact h.1 hma
      simp [hrest]
    · rw [if_neg hp, List.filter_cons]
      simp only [decide_eq_true_eq, if_neg hp]
      exact ih h.2

/-! ## Lemmas about the RAG hit loop -/

theorem mem_rag_search_resumes_hits (ids : List String)
    (docs : List (List Char)) (metas : List ChromaMeta) (dists : List ℚ)
    (e : ResumeHit) (he : e ∈ rag_search_resumes_hits ids docs metas dists) :
    ∃ rid text meta dist, dist ∈ dists ∧ e = mkResumeHit rid text meta dist := by
  induction ids generalizing docs metas dists with
  | nil =>
    have hz : rag_search_resumes_hits [] docs metas dists = [] := rfl
    rw [hz] at he
    cases he
  | cons rid ids ih =>
    cases docs with
    | nil =>
      have hz : rag_search_resumes_hits (rid :: ids) [] metas dists = [] := rfl
      rw [hz] at he
      cases he
    | cons t docs =>
      cases metas with
      | nil =>
        have hz : rag_search_resumes_hits (rid :: ids) (t :: docs) [] dists =
          [] := rfl
        rw [hz] at he
        cases he
      | cons m metas =>
        cases dists with
        | nil =>
          have hz : rag_search_resumes_hits (rid :: ids) (t :: docs)
            (m :: metas) [] = [] := rfl
          rw [hz] at he
          cases he
        | cons d dists =>
          have hz : rag_search_resumes_hits (rid :: ids) (t :: docs)
              (m :: metas) (d :: dists) =
              mkResumeHit rid t m d ::
                rag_search_resumes_hits ids docs metas dists := rfl
          rw [hz] at he
          rcases List.mem_cons.mp he with rfl | he
          · exact ⟨rid, t, m, d, List.mem_cons_self _ _, rfl⟩
          · obtain ⟨r, tx, mm, dd, hdd, hee⟩ := ih docs metas dists he
            exact ⟨r, tx, mm, dd, List.mem_cons_of_mem _ hdd, hee⟩

/-! ## Claims -/

/-- C3 counterexample: the completion service returns a requirement whose
quote "must have Java skills" does not occur in the cited segment JD#1, yet
stage 1 accepts the requirement into `jd_requirements` unchanged and its
warnings are exactly the heuristic quality warnings — no rejection, no flag. -/
theorem stage1_accepts_nonverbatim_quote :
    stage1_extract_jd_requirements
        "We require Python experience for this role".data
        [⟨"JD#1", "We require Python experience for this role".data⟩]
        (.ok ⟨[⟨"Java expertise".data, "must", "skills",
          [⟨"JD#1", "must have Java skills".data⟩]⟩]⟩) =
      ⟨[⟨"Java expertise".data, "must", "skills",
          [⟨"JD#1", "must have Java skills".data⟩]⟩],
        [shortJDWarning, fewBulletsWarning]⟩ ∧
    containsSeq "must have Java skills".data
      "We require Python experience for this role".data = false := by
  constructor
  · decide
  · decide

/-- C3 (amended): stage 1 performs no verbatim-quote verification at all: any
well-formed completion response is accepted into `jd_requirements` unchanged
— whether or not its quotes occur in the cited segments — and the warnings
are exactly the heuristic quality warnings, so a non-verbatim quote is
neither rejected nor flagged. -/
theorem stage1_no_quote_verification (jd_text : List Char) (segs : List Seg)
    (j : Stage1Json) :
    stage1_extract_jd_requirements jd_text segs (.ok j) =
      ⟨j.jd_requirements, heuristicWarnings jd_text⟩ := rfl

/-- C4: calling `upsert_resume` twice with the same `id_key` leaves exactly
one record in the index under `id = hash(id_key)`, and that record's document
text, metadata and embedding are exactly those supplied by the second call
(full replacement, no merge, no duplicate entries). -/
theorem upsert_resume_twice_replaces {μ : Type} (embed : List Char → List ℚ)
    (hashId : String → String) (path : String) (t1 t2 : List Char)
    (m1 m2 : μ) (col : List (String × StoredRec μ))
    (hnodup : (col.map Prod.fst).Nodup) :
    ((upsert_resume embed hashId path t2 m2
        (upsert_resume embed hashId path t1 m1 col).2).2).filter
      (fun r => r.1 = hashId path) =
      [(hashId path, ⟨t2, m2, embed t2⟩)] ∧
    (upsert_resume embed hashId path t2 m2
        (upsert_resume embed hashId path t1 m1 col).2).1 = hashId path := by
  constructor
  · simp only [upsert_resume]
    apply filter_colUpsert
    exact nodup_keys_colUpsert _ _ _ hnodup
  · rfl

/-- C4 witness: a concrete double upsert of the same path into the empty
index leaves exactly the second record. -/
theorem upsert_resume_twice_replaces_witness :
    ((upsert_resume (fun _ => [(1:ℚ)]) (fun s => s) "a.pdf" "second".data
        (2:ℕ)
        (upsert_resume (fun _ => [(1:ℚ)]) (fun s => s) "a.pdf" "first".data
          (1:ℕ) []).2).2).filter
      (fun r => r.1 = (fun s : String => s) "a.pdf") =
      [("a.pdf", ⟨"second".data, 2, [(1:ℚ)]⟩)] :=
  (upsert_resume_twice_replaces (fun _ => [(1:ℚ)]) (fun s => s) "a.pdf"
    "first".data "second".data 1 2 [] (by simp)).1

/-- C6: stage 1 never raises: on a completion output that is empty or not
valid structured JSON the result is an empty requirement list together with
the heuristic warnings plus a parse diagnostic (so at least one diagnostic),
and the heuristic quality warnings (short JD, few bullets) are included
whether the completion call succeeds or fails. -/
theorem stage1_failure_contract (jd_text : List Char) (segs : List Seg)
    (e : String) (j : Stage1Json) :
    stage1_extract_jd_requirements jd_text segs (.error e) =
      ⟨[], heuristicWarnings jd_text ++
        ["Failed to parse JD requirements: " ++ e]⟩ ∧
    (stage1_extract_jd_requirements jd_text segs (.error e)).warnings ≠ [] ∧
    (stage1_extract_jd_requirements jd_text segs (.ok j)).warnings =
      heuristicWarnings jd_text ∧
    (jd_text.length < 400 → shortJDWarning ∈ heuristicWarnings jd_text) ∧
    (bulletCount jd_text < 5 → fewBulletsWarning ∈ heuristicWarnings jd_text) := by
  refine ⟨rfl, by simp [stage1_extract_jd_requirements], rfl, ?_, ?_⟩
  · intro h
    rw [heuristicWarnings, if_pos h]
    exact List.mem_append_left _ (List.mem_singleton.mpr rfl)
  · intro h
    rw [heuristicWarnings, if_pos h]
    exact List.mem_append_right _ (List.mem_singleton.mpr rfl)

/-- C6 witness: a short, bullet-free JD with a garbage completion output
yields an empty requirement list whose warnings contain the short-JD heuristic
warning. -/
theorem stage1_failure_contract_witness :
    (stage1_extract_jd_requirements "Hiring".data []
      (.error "boom")).jd_requirements = [] ∧
    shortJDWarning ∈
      (stage1_extract_jd_requirements "Hiring".data []
        (.error "boom")).warnings := by
  have h := stage1_failure_contract "Hiring".data [] "boom" ⟨[]⟩
  constructor
  · rw [h.1]
  · rw [h.1]
    exact List.mem_append_left _ (h.2.2.2.1 (by decide))

/-- C7 counterexample: a hit at cosine distance 1/4 is reported with
similarity 75.0 — the rounded percentage — which is neither `1 - distance`
(= 3/4) nor inside `[0, 1]`. -/
theorem rag_similarity_not_unit_interval :
    (mkResumeHit "r1" [] ⟨none, none, none, none, none⟩
      (1/4)).similarity_score = 75 ∧
    ((1 : ℚ) - 1/4 = 3/4) ∧ ((75 : ℚ) ≠ 3/4) ∧ ¬ ((75:ℚ) ≤ 1) ∧
    mkResumeHit "r1" [] ⟨none, none, none, none, none⟩ (1/4) ∈
      rag_search_resumes_hits ["r1"] [[]] [⟨none, none, none, none, none⟩]
        [1/4] := by
  refine ⟨?_, by norm_num, by norm_num, by norm_num,
    List.mem_cons_self _ _⟩
  show round1 ((1 - 1/4) * 100) = 75
  rw [round1, roundHalfEven]
  norm_num

/-- C7 (amended): every hit assembled by `rag_search_resumes` reports
similarity `round((1 - distance) * 100, 1)` — a rounded percentage — and when
the distance lies in `[0, 1]` the reported value lies in `[0, 100]`, not in
`[0, 1]`. -/
theorem rag_similarity_is_rounded_percentage (ids : List String)
    (docs : List (List Char)) (metas : List ChromaMeta) (dists : List ℚ)
    (e : ResumeHit) (he : e ∈ rag_search_resumes_hits ids docs metas dists) :
    ∃ rid text meta dist, dist ∈ dists ∧ e = mkResumeHit rid text meta dist ∧
      e.similarity_score = round1 ((1 - dist) * 100) ∧
      (0 ≤ dist → dist ≤ 1 →
        0 ≤ e.similarity_score ∧ e.similarity_score ≤ 100) := by
  obtain ⟨rid, text, meta, dist, hd, rfl⟩ :=
    mem_rag_search_resumes_hits ids docs metas dists e he
  refine ⟨rid, text, meta, dist, hd, rfl, rfl, ?_⟩
  intro h0 h1
  exact round1_bounds _ (by linarith) (by linarith)

/-- C7 witness: the amended statement applied at the concrete hit of the
counterexample input with distance 1/4. -/
theorem rag_similarity_is_rounded_percentage_witness :
    ∃ rid text meta dist,
      dist ∈ [(1:ℚ)/4] ∧
      mkResumeHit "r1" [] ⟨none, none, none, none, none⟩ (1/4) =
        mkResumeHit rid text meta dist ∧
      (mkResumeHit "r1" [] ⟨none, none, none, none, none⟩
        (1/4)).similarity_score = round1 ((1 - dist) * 100) ∧
      (0 ≤ dist → dist ≤ 1 →
        0 ≤ (mkResumeHit "r1" [] ⟨none, none, none, none, none⟩
              (1/4)).similarity_score ∧
          (mkResumeHit "r1" [] ⟨none, none, none, none, none⟩
            (1/4)).similarity_score ≤ 100) :=
  rag_similarity_is_rounded_percentage ["r1"] [[]]
    [⟨none, none, none, none, none⟩] [1/4] _ (List.mem_cons_self _ _)

/-- C5: stage 2 evaluates exactly the first 15 requirements and returns one
evaluation per evaluated requirement in the original input order; a
requirement with no candidate resume segments gets status `missing`,
confidence 0.3, empty resume evidence, and no completion call; a completion
or parse failure for one requirement degrades to `missing` with a diagnostic
note while every other requirement is still evaluated. -/
theorem stage2_evaluate_match_contract (oracle : ℕ → Except String EvalJson)
    (reqs : List JDRequirement) (segs : List Seg) :
    (stage2_evaluate_match oracle reqs segs).length = min 15 reqs.length ∧
    (∀ j (hj : j < (reqs.take 15).length)
        (hj2 : j < (stage2_evaluate_match oracle reqs segs).length),
      (stage2_evaluate_match oracle reqs segs).get ⟨j, hj2⟩ =
        stage2EvalOne oracle segs j ((reqs.take 15).get ⟨j, hj⟩)) ∧
    (∀ j (hj : j < (reqs.take 15).length)
        (hj2 : j < (stage2_evaluate_match oracle reqs segs).length),
      find_candidate_segments ((reqs.take 15).get ⟨j, hj⟩).requirement
          segs 5 = [] →
        (stage2_evaluate_match oracle reqs segs).get ⟨j, hj2⟩ =
          noSegmentsEval ((reqs.take 15).get ⟨j, hj⟩) ∧
        j ∉ stage2Calls reqs segs) ∧
    (∀ j (hj : j < (reqs.take 15).length)
        (hj2 : j < (stage2_evaluate_match oracle reqs segs).length) (e : String),
      find_candidate_segments ((reqs.take 15).get ⟨j, hj⟩).requirement
          segs 5 ≠ [] →
      oracle j = .error e →
        (stage2_evaluate_match oracle reqs segs).get ⟨j, hj2⟩ =
          errorEval ((reqs.take 15).get ⟨j, hj⟩) e) := by
  have hget : ∀ j (hj : j < (reqs.take 15).length)
      (hj2 : j < (stage2_evaluate_match oracle reqs segs).length),
      (stage2_evaluate_match oracle reqs segs).get ⟨j, hj2⟩ =
        stage2EvalOne oracle segs j ((reqs.take 15).get ⟨j, hj⟩) := by
    intro j hj hj2
    have := stage2Go_get oracle segs (reqs.take 15) 0 j hj hj2
    simpa [stage2_evaluate_match] using this
  refine ⟨?_, hget, ?_, ?_⟩
  · rw [stage2_evaluate_match, stage2Go_length, List.length_take]
  · intro j hj hj2 hnone
    refine ⟨?_, ?_⟩
    · rw [hget j hj hj2, stage2EvalOne, if_pos hnone]
    · intro hmem
      obtain ⟨j2, hj2', hjeq, hne⟩ :=
        (mem_stage2CallsGo segs 0 j (reqs.take 15)).mp hmem
      have : j2 = j := by omega
      subst this
      exact hne (by convert hnone)
  · intro j hj hj2 e hne herr
    rw [hget j hj hj2, stage2EvalOne, if_neg hne, herr]

/-- C5 witness: two requirements against one resume segment, with a failing
completion service: the first (matching the segment) degrades to a diagnostic
`missing` evaluation, the second (matching nothing) short-circuits to the
`missing`/0.3 evaluation without a completion call, and both are evaluated. -/
theorem stage2_evaluate_match_contract_witness :
    (stage2_evaluate_match (fun _ => .error "timeout")
      [⟨"python experience".data, "must", "skills", []⟩,
       ⟨"kubernetes".data, "must", "skills", []⟩]
      [⟨"R#1", "built python services".data⟩]).length = min 15 2 ∧
    (1 : ℕ) ∉ stage2Calls
      [⟨"python experience".data, "must", "skills", []⟩,
       ⟨"kubernetes".data, "must", "skills", []⟩]
      [⟨"R#1", "built python services".data⟩] ∧
    stage2_evaluate_match (fun _ => .error "timeout")
      [⟨"python experience".data, "must", "skills", []⟩,
       ⟨"kubernetes".data, "must", "skills", []⟩]
      [⟨"R#1", "built python services".data⟩] =
      [errorEval ⟨"python experience".data, "must", "skills", []⟩ "timeout",
       noSegmentsEval ⟨"kubernetes".data, "must", "skills", []⟩] := by
  have h := stage2_evaluate_match_contract (fun _ => .error "timeout")
    [⟨"python experience".data, "must", "skills", []⟩,
     ⟨"kubernetes".data, "must", "skills", []⟩]
    [⟨"R#1", "built python services".data⟩]
  refine ⟨h.1, ?_, rfl⟩
  exact ((h.2.2.1 1 (by decide) (by rw [h.1]; norm_num) (by decide)).2)

/-- C10: `find_candidate_segments` returns only segments with a strictly
positive match score — those in which a lowercase requirement keyword of
three or more letters occurs, or in which the first 20 characters of the
requirement occur verbatim case-insensitively; non-matching segments are
excluded, so at most `top_k` results come back, the result is empty when no
segment matches, and an empty result makes stage 2 emit the `missing`/0.3
evaluation without a completion call. -/
theorem find_candidate_segments_positive (req : List Char) (segs : List Seg)
    (k : ℕ) :
    (∀ s ∈ find_candidate_segments req segs k,
      0 < s.match_score ∧
      ∃ seg ∈ segs, s = ⟨seg.id, seg.text, segMatchScore req seg⟩ ∧
        ((∃ kw ∈ reqKeywords req,
            containsSeq kw (seg.text.map Char.toLower) = true) ∨
          containsSeq ((req.map Char.toLower).take 20)
            (seg.text.map Char.toLower) = true)) ∧
    (find_candidate_segments req segs k).length ≤ k ∧
    ((∀ seg ∈ segs, segMatchScore req seg = 0) →
      find_candidate_segments req segs k = []) ∧
    (∀ (oracle : ℕ → Except String EvalJson) (i : ℕ) (r : JDRequirement),
      r.requirement = req →
      find_candidate_segments req segs 5 = [] →
      stage2EvalOne oracle segs i r = noSegmentsEval r) := by
  refine ⟨?_, ?_, find_candidate_segments_eq_nil req segs k, ?_⟩
  · intro s hs
    obtain ⟨hpos, seg, hseg, heq⟩ := mem_find_candidate_segments req segs k s hs
    refine ⟨hpos, seg, hseg, heq, ?_⟩
    apply (segMatchScore_pos_iff req seg).mp
    rw [heq] at hpos
    exact hpos
  · rw [find_candidate_segments]
    exact List.length_take_le _ _
  · intro oracle i r hr h5
    rw [stage2EvalOne, hr, if_pos h5]

/-- C10 witness: against the segment "built python services", the requirement
"python experience" yields exactly one candidate (keyword "python" occurs,
score 1 > 0) and the requirement "kubernetes" yields none, which
short-circuits stage 2. -/
theorem find_candidate_segments_positive_witness :
    find_candidate_segments "kubernetes".data
      [⟨"R#1", "built python services".data⟩] 5 = [] ∧
    0 < (⟨"R#1", "built python services".data,
      segMatchScore "python experience".data
        ⟨"R#1", "built python services".data⟩⟩ : ScoredSeg).match_score ∧
    stage2EvalOne (fun _ => .error "x")
      [⟨"R#1", "built python services".data⟩] 0
      ⟨"kubernetes".data, "must", "skills", []⟩ =
      noSegmentsEval ⟨"kubernetes".data, "must", "skills", []⟩ := by
  have hnil :=
    (find_candidate_segments_positive "kubernetes".data
      [⟨"R#1", "built python services".data⟩] 5).2.2.1 (by decide)
  refine ⟨hnil, ?_, ?_⟩
  · exact ((find_candidate_segments_positive "python experience".data
      [⟨"R#1", "built python services".data⟩] 5).1 _ (by decide)).1
  · exact (find_candidate_segments_positive "kubernetes".data
      [⟨"R#1", "built python services".data⟩] 5).2.2.2
      (fun _ => .error "x") 0 ⟨"kubernetes".data, "must", "skills", []⟩
      rfl hnil

/-! ## Lemmas for the segmenter claims -/

theorem numberFrom_length (n : ℕ) (ts : List (List Char)) :
    (numberFrom n ts).length = ts.length := by
  induction ts generalizing n with
  | nil => rfl
  | cons t ts ih => simp [numberFrom, ih]

theorem cleanLine_nil : cleanLine [] = [] := rfl

theorem pyStrip_nil : pyStrip [] = [] := rfl

theorem joinSpace_single (x : List Char) : joinSpace [x] = x := rfl

theorem jdSegTexts_two_paragraphs (p1 p2 : List Char)
    (h1n : '\n' ∉ p1) (h2n : '\n' ∉ p2)
    (h1 : 20 < (cleanLine (pyStrip p1)).length)
    (h2 : 20 < (cleanLine (pyStrip p2)).length) :
    jdSegTexts (p1 ++ '\n' :: '\n' :: p2) =
      [cleanLine (pyStrip p1), cleanLine (pyStrip p2)] := by
  have hs1 : pyStrip p1 ≠ [] := by
    intro h
    rw [h, cleanLine_nil] at h1
    simp at h1
  have hc1 : cleanLine (pyStrip p1) ≠ [] := by
    intro h
    rw [h] at h1
    simp at h1
  have hs2 : pyStrip p2 ≠ [] := by
    intro h
    rw [h, cleanLine_nil] at h2
    simp at h2
  have hc2 : cleanLine (pyStrip p2) ≠ [] := by
    intro h
    rw [h] at h2
    simp at h2
  rw [jdSegTexts, splitOnChar_append_sep, splitOnChar_sep_cons,
    splitOnChar_of_not_mem '\n' p1 (fun x hx hxc => h1n (hxc ▸ hx)),
    splitOnChar_of_not_mem '\n' p2 (fun x hx hxc => h2n (hxc ▸ hx))]
  show jdGo [p1, [], p2] [] = _
  rw [jdGo, if_neg hs1, if_neg (by simp)]
  rw [appendClean]
  rw [if_neg hc1, List.nil_append]
  rw [jdGo, if_pos pyStrip_nil]
  rw [jdGo, if_neg hs2, if_neg (by simp)]
  rw [appendClean, if_neg hc2, List.nil_append]
  show flushJD [cleanLine (pyStrip p1)] ++ flushJD [cleanLine (pyStrip p2)] = _
  rw [flushJD, if_neg (by simp), joinSpace_single, if_pos h1]
  rw [flushJD, if_neg (by simp), joinSpace_single, if_pos h2]
  rfl

/-- C8 counterexample: a JD of exactly two blank-line-delimited paragraphs,
each of exactly 20 characters (so "at least 20 characters"), yields no
segment at all — not 2 — because the segmenter keeps only text strictly
longer than 20 characters. -/
theorem segment_jd_drops_20char_paragraphs :
    segment_jd "abcdefghijklmnopqrst\n\nabcdefghijklmnopqrst".data = [] ∧
    ("abcdefghijklmnopqrst".data).length = 20 ∧
    "abcdefghijklmnopqrst\n\nabcdefghijklmnopqrst".data =
      "abcdefghijklmnopqrst".data ++ '\n' :: '\n' ::
        "abcdefghijklmnopqrst".data := by
  refine ⟨by decide, by decide, by decide⟩

/-- C8 (amended): segmenting a JD of exactly two blank-line-delimited
single-line paragraphs whose cleaned text is strictly longer than 20
characters yields exactly the segments `JD#1` and `JD#2` in scan order;
every segment returned by `segment_jd` has text strictly longer than 20
characters; and segmentation distributes over a blank-line boundary, so no
segment ever spans one. -/
theorem segment_jd_contract :
    (∀ p1 p2 : List Char, '\n' ∉ p1 → '\n' ∉ p2 →
      20 < (cleanLine (pyStrip p1)).length →
      20 < (cleanLine (pyStrip p2)).length →
      segment_jd (p1 ++ '\n' :: '\n' :: p2) =
        [⟨"JD#1", cleanLine (pyStrip p1)⟩,
         ⟨"JD#2", cleanLine (pyStrip p2)⟩]) ∧
    (∀ t : List Char, ∀ seg ∈ segment_jd t, 20 < seg.text.length) ∧
    (∀ t1 t2 : List Char,
      segment_jd (t1 ++ '\n' :: '\n' :: t2) =
        segment_jd t1 ++
          numberFrom (1 + (segment_jd t1).length) (jdSegTexts t2)) := by
  refine ⟨?_, ?_, ?_⟩
  · intro p1 p2 h1n h2n h1 h2
    rw [segment_jd, jdSegTexts_two_paragraphs p1 p2 h1n h2n h1 h2]
    rfl
  · intro t seg hseg
    exact mem_jdGo _ _ _ (mem_numberFrom 1 _ seg hseg)
  · intro t1 t2
    rw [segment_jd, jdSegTexts, splitOnChar_append_sep, splitOnChar_sep_cons,
      jdGo_append_blank, numberFrom_append]
    simp only [segment_jd, jdSegTexts, numberFrom_length]

/-- C8 witness: two concrete plain paragraphs of 30 and 33 characters are
segmented into exactly `JD#1` and `JD#2`, and both parts of a concrete
blank-line split carry their own segments. -/
theorem segment_jd_contract_witness :
    segment_jd
      "We need a python developer now\n\nMust have cloud deployment skills".data =
      [⟨"JD#1", "We need a python developer now".data⟩,
       ⟨"JD#2", "Must have cloud deployment skills".data⟩] := by
  have h := segment_jd_contract.1 "We need a python developer now".data
    "Must have cloud deployment skills".data
    (by decide) (by decide) (by decide) (by decide)
  rw [show
    "We need a python developer now\n\nMust have cloud deployment skills".data =
      "We need a python developer now".data ++ '\n' :: '\n' ::
        "Must have cloud deployment skills".data from by decide]
  rw [h]
  decide

/-! ## Lemmas for the scorer claims -/

theorem sKw_if_eq_div (a b : List String) :
    (if a.dedup = [] then (0:ℚ)
     else ((setInter a b).length : ℚ) / max 1 (a.dedup.length : ℚ)) =
      ((setInter a b).length : ℚ) / max 1 (a.dedup.length : ℚ) := by
  by_cases h : a.dedup = []
  · rw [if_pos h, setInter, h]
    norm_num
  · rw [if_neg h]

theorem scoreCandidate_trivial_eval (t : List Char) (p : String)
    (hp : p ≠ "") :
    scoreCandidate (fun _ => .ok [(1:ℚ)]) (fun _ _ => 0) (fun _ _ => 0)
      [1] [] "software engineer" 0
      ⟨t, ⟨some [], some [], some 0⟩, some p, none⟩ =
      .ok ⟨some p, none, 0, [], [], 0⟩ := by
  rw [scoreCandidate]
  norm_num [setInter, pyMax, round3, roundHalfEven, pyOr,
    exceptBind_okHead, Pure.pure, Except.pure]
  exact ⟨fun h => absurd h hp, rfl⟩

theorem mapM_trivial_two_eval :
    List.mapM (scoreCandidate (fun _ => .ok [(1:ℚ)])
      (fun _ _ => 0) (fun _ _ => 0) [1] [] "software engineer" 0)
      [⟨"r1".data, ⟨some [], some [], some 0⟩, some "p1", none⟩,
       ⟨"r2".data, ⟨some [], some [], some 0⟩, some "p2", none⟩] =
      .ok [⟨some "p1", none, 0, [], [], 0⟩,
           ⟨some "p2", none, 0, [], [], 0⟩] := by
  rw [List.mapM_cons, scoreCandidate_trivial_eval "r1".data "p1" (by decide),
    exceptBind_okHead, List.mapM_cons,
    scoreCandidate_trivial_eval "r2".data "p2" (by decide),
    exceptBind_okHead, List.mapM_nil]
  rfl

theorem score_and_rank_trivial_two_eval :
    score_and_rank (fun _ => .ok [(1:ℚ)]) (fun _ _ => 0) (fun _ _ => 0)
      "jd".data ⟨none, none, none⟩
      [⟨"r1".data, ⟨some [], some [], some 0⟩, some "p1", none⟩,
       ⟨"r2".data, ⟨some [], some [], some 0⟩, some "p2", none⟩] =
      .ok [⟨some "p1", none, 0, [], [], 0⟩,
           ⟨some "p2", none, 0, [], [], 0⟩] := by
  rw [score_and_rank]
  show (do
    let results ← List.mapM (scoreCandidate (fun _ => .ok [(1:ℚ)])
      (fun _ _ => 0) (fun _ _ => 0) [1] [] "software engineer" 0)
      [⟨"r1".data, ⟨some [], some [], some 0⟩, some "p1", none⟩,
       ⟨"r2".data, ⟨some [], some [], some 0⟩, some "p2", none⟩]
    pure (sortDescBy (fun e => e.score) results)) =
    Except.ok [⟨some "p1", none, 0, [], [], 0⟩,
               ⟨some "p2", none, 0, [], [], 0⟩]
  rw [mapM_trivial_two_eval, exceptBind_okHead]
  show (pure (sortDescBy (fun e => e.score)
    [(⟨some "p1", none, 0, [], [], 0⟩ : RankedEntry),
     ⟨some "p2", none, 0, [], [], 0⟩]) :
      Except String (List RankedEntry)) = _
  norm_num [sortDescBy, insertDescBy, Pure.pure, Except.pure]

/-- C1: when every embedding succeeds, the entry `score_and_rank` builds for
a candidate carries the score `round(0.55*Svec + 0.25*Skw + 0.15*Stitle +
0.05*Syrs, 3)` where `Svec` is the cosine similarity of the JD and resume
embeddings, `Skw = |JDskills ∩ Rskills| / max(1, |JDskills|)` (0 for an empty
JD skill set), `Stitle` is the best fuzzy token-set ratio over the
candidate's titles scaled to `[0,1]` (0 with no titles), and
`Syrs = min(candidateYears, jdYears)/jdYears` with `Syrs = 0` when
`jdYears = 0` — no division by zero. -/
theorem score_and_rank_score_formula
    (embed : List Char → Except String (List ℚ))
    (cosSim : List ℚ → List ℚ → ℚ) (fuzz : String → String → ℚ)
    (jd_text : List Char) (jd_info : JDInfo) (candidates : List Candidate)
    (out : List RankedEntry) (jdVec : List ℚ) (c : Candidate) (rVec : List ℚ)
    (hfuzz : ∀ a b, 0 ≤ fuzz a b ∧ fuzz a b ≤ 100)
    (hjd : embed jd_text = .ok jdVec)
    (hout : score_and_rank embed cosSim fuzz jd_text jd_info candidates =
      .ok out)
    (hc : c ∈ candidates) (hr : embed c.text = .ok rVec) :
    ∃ e, scoreCandidate embed cosSim fuzz jdVec (jd_info.skills.getD [])
        (jd_info.title.getD "software engineer") (jd_info.years.getD 0) c =
        .ok e ∧
      e ∈ out ∧
      e.score = round3
        (0.55 * cosSim jdVec rVec +
         0.25 * (((setInter (jd_info.skills.getD [])
             (c.fields.skills.getD [])).length : ℚ) /
           max 1 (((jd_info.skills.getD []).dedup.length : ℚ))) +
         0.15 * (pyMax ((c.fields.titles.getD []).map
             (fun t => fuzz (jd_info.title.getD "software engineer") t)) 0 /
           100) +
         0.05 * (if jd_info.years.getD 0 = 0 then 0
           else min (c.fields.years_exp.getD 0) (jd_info.years.getD 0) /
             jd_info.years.getD 0)) ∧
      (jd_info.skills.getD [] = [] →
        ((setInter (jd_info.skills.getD [])
            (c.fields.skills.getD [])).length : ℚ) /
          max 1 (((jd_info.skills.getD []).dedup.length : ℚ)) = 0) ∧
      (c.fields.titles.getD [] = [] →
        pyMax ((c.fields.titles.getD []).map
            (fun t => fuzz (jd_info.title.getD "software engineer") t)) 0 /
          100 = 0) ∧
      (0 ≤ pyMax ((c.fields.titles.getD []).map
            (fun t => fuzz (jd_info.title.getD "software engineer") t)) 0 /
          100 ∧
        pyMax ((c.fields.titles.getD []).map
            (fun t => fuzz (jd_info.title.getD "software engineer") t)) 0 /
          100 ≤ 1) := by
  rw [score_and_rank, hjd, exceptBind_okHead] at hout
  obtain ⟨results, hres, hpure⟩ := exceptBind_ok hout
  have hout2 : out = sortDescBy (fun e => e.score) results := by
    simpa [Pure.pure, Except.pure] using hpure.symm
  obtain ⟨e, hsc, hmem⟩ := mapM_ok_mem _ _ _ hres c hc
  refine ⟨e, hsc, ?_, ?_, ?_, ?_, ?_⟩
  · rw [hout2]
    exact (mem_sortDescBy _ _ _).mpr hmem
  · rw [scoreCandidate, hr, exceptBind_okHead] at hsc
    simp only [Pure.pure, Except.pure, Except.ok.injEq] at hsc
    rw [← hsc]
    show round3 _ = round3 _
    rw [sKw_if_eq_div]
  · intro h
    rw [h]
    simp [setInter]
  · intro h
    rw [h]
    simp [pyMax]
  · have hb := pyMax_bounds ((c.fields.titles.getD []).map
      (fun t => fuzz (jd_info.title.getD "software engineer") t)) 0 0 100
      (by norm_num)
      (by
        intro v hv
        obtain ⟨t, _, rfl⟩ := List.mem_map.mp hv
        exact hfuzz _ t)
    constructor
    · exact div_nonneg hb.1 (by norm_num)
    · rw [div_le_one (by norm_num : (0:ℚ) < 100)]
      exact hb.2

/-- C1 witness: two trivial candidates scored with constant external
capabilities; the first candidate's entry is in the output and its score is
the rounded weighted sum (here 0). -/
theorem score_and_rank_score_formula_witness :
    ∃ e, scoreCandidate (fun _ => .ok [(1:ℚ)]) (fun _ _ => 0) (fun _ _ => 0)
        [1] [] "software engineer" 0
        ⟨"r1".data, ⟨some [], some [], some 0⟩, some "p1", none⟩ = .ok e ∧
      e ∈ [(⟨some "p1", none, 0, [], [], 0⟩ : RankedEntry),
           ⟨some "p2", none, 0, [], [], 0⟩] ∧
      e.score = round3 (0.55 * (0:ℚ) +
        0.25 * (((setInter [] []).length : ℚ) /
          max 1 ((([] : List String).dedup.length : ℚ))) +
        0.15 * (pyMax [] 0 / 100) +
        0.05 * (if (0:ℚ) = 0 then 0 else min 0 0 / 0)) := by
  obtain ⟨e, h1, h2, h3, _⟩ := score_and_rank_score_formula
    (fun _ => .ok [(1:ℚ)]) (fun _ _ => 0) (fun _ _ => 0) "jd".data
    ⟨none, none, none⟩
    [⟨"r1".data, ⟨some [], some [], some 0⟩, some "p1", none⟩,
     ⟨"r2".data, ⟨some [], some [], some 0⟩, some "p2", none⟩]
    [⟨some "p1", none, 0, [], [], 0⟩, ⟨some "p2", none, 0, [], [], 0⟩]
    [1] ⟨"r1".data, ⟨some [], some [], some 0⟩, some "p1", none⟩ [1]
    (fun _ _ => by norm_num) rfl score_and_rank_trivial_two_eval
    (List.mem_cons_self _ _) rfl
  exact ⟨e, h1, h2, h3⟩

/-- C2: for a non-empty JD and candidate list (and successful embeddings),
`score_and_rank` returns the candidates' entries sorted in non-increasing
order of score, and entries with equal (rounded) scores appear in the same
relative order as in the input candidate list — the stable tie-break,
expressed by the filter-at-each-score-level identity. -/
theorem score_and_rank_sorted_and_stable
    (embed : List Char → Except String (List ℚ))
    (cosSim : List ℚ → List ℚ → ℚ) (fuzz : String → String → ℚ)
    (jd_text : List Char) (jd_info : JDInfo) (candidates : List Candidate)
    (out entries : List RankedEntry) (jdVec : List ℚ)
    (_hne : candidates ≠ [])
    (hjd : embed jd_text = .ok jdVec)
    (hmap : candidates.mapM (scoreCandidate embed cosSim fuzz jdVec
      (jd_info.skills.getD []) (jd_info.title.getD "software engineer")
      (jd_info.years.getD 0)) = .ok entries)
    (hout : score_and_rank embed cosSim fuzz jd_text jd_info candidates =
      .ok out) :
    out = sortDescBy (fun e => e.score) entries ∧
    out.Pairwise (fun a b => b.score ≤ a.score) ∧
    ∀ s : ℚ, out.filter (fun e => e.score = s) =
      entries.filter (fun e => e.score = s) := by
  rw [score_and_rank, hjd, exceptBind_okHead] at hout
  obtain ⟨results, hres, hpure⟩ := exceptBind_ok hout
  rw [hmap] at hres
  have hre : entries = results := (Except.ok.injEq _ _).mp hres
  subst hre
  have hout2 : out = sortDescBy (fun e => e.score) entries := by
    simpa [Pure.pure, Except.pure] using hpure.symm
  refine ⟨hout2, ?_, ?_⟩
  · rw [hout2]
    exact pairwise_sortDescBy _ _
  · intro s
    rw [hout2]
    exact filter_sortDescBy _ _ s

/-- C2 witness: two candidates with equal score 0 keep their input order in
the output, the output is the stable descending sort of the entries, and the
filter at score level 0 is preserved. -/
theorem score_and_rank_sorted_and_stable_witness :
    [(⟨some "p1", none, 0, [], [], 0⟩ : RankedEntry),
     ⟨some "p2", none, 0, [], [], 0⟩] =
      sortDescBy (fun e => e.score)
        [(⟨some "p1", none, 0, [], [], 0⟩ : RankedEntry),
         ⟨some "p2", none, 0, [], [], 0⟩] ∧
    ([(⟨some "p1", none, 0, [], [], 0⟩ : RankedEntry),
      ⟨some "p2", none, 0, [], [], 0⟩].Pairwise
        (fun a b => b.score ≤ a.score)) ∧
    [(⟨some "p1", none, 0, [], [], 0⟩ : RankedEntry),
     ⟨some "p2", none, 0, [], [], 0⟩].filter (fun e => e.score = 0) =
      [(⟨some "p1", none, 0, [], [], 0⟩ : RankedEntry),
       ⟨some "p2", none, 0, [], [], 0⟩].filter (fun e => e.score = 0) := by
  obtain ⟨h1, h2, h3⟩ := score_and_rank_sorted_and_stable
    (fun _ => .ok [(1:ℚ)]) (fun _ _ => 0) (fun _ _ => 0)
    "jd".data ⟨none, none, none⟩
    [⟨"r1".data, ⟨some [], some [], some 0⟩, some "p1", none⟩,
     ⟨"r2".data, ⟨some [], some [], some 0⟩, some "p2", none⟩]
    [⟨some "p1", none, 0, [], [], 0⟩, ⟨some "p2", none, 0, [], [], 0⟩]
    [⟨some "p1", none, 0, [], [], 0⟩, ⟨some "p2", none, 0, [], [], 0⟩]
    [1] (by simp) rfl mapM_trivial_two_eval score_and_rank_trivial_two_eval
  exact ⟨h1, h2, h3 0⟩

/-- C9 counterexample: one failing candidate embedding aborts the whole
ranking — `score_and_rank` returns the error, with no ranked entry for the
healthy first candidate and no defect list. -/
theorem score_and_rank_aborts_on_embedding_failure :
    score_and_rank
      (fun t => if t = "resume two".data then .error "embedding failure"
        else .ok [(1:ℚ)])
      (fun _ _ => 0) (fun _ _ => 0) "jd text".data ⟨none, none, none⟩
      [⟨"resume one".data, ⟨some [], some [], some 0⟩, some "p1", none⟩,
       ⟨"resume two".data, ⟨some [], some [], some 0⟩, some "p2", none⟩] =
      .error "embedding failure" := by
  rfl

/-- C9 (amended): `score_and_rank` does not isolate per-candidate embedding
failures: if the JD embeds but any candidate's embedding fails, the whole
call returns that error — no candidate is ranked and no defect list is
produced (the isolation demanded by the spec is absent from the source). -/
theorem score_and_rank_propagates_embedding_failure
    (embed : List Char → Except String (List ℚ))
    (cosSim : List ℚ → List ℚ → ℚ) (fuzz : String → String → ℚ)
    (jd_text : List Char) (jd_info : JDInfo) (candidates : List Candidate)
    (jdVec : List ℚ) (c : Candidate) (e : String)
    (hjd : embed jd_text = .ok jdVec)
    (hc : c ∈ candidates) (he : embed c.text = .error e) :
    ∃ msg, score_and_rank embed cosSim fuzz jd_text jd_info candidates =
      .error msg := by
  have hsc : scoreCandidate embed cosSim fuzz jdVec (jd_info.skills.getD [])
      (jd_info.title.getD "software engineer") (jd_info.years.getD 0) c =
      .error e := by
    rw [scoreCandidate, he, exceptBind_errHead]
  obtain ⟨msg, hmsg⟩ := mapM_error_of_mem _ candidates c hc e hsc
  refine ⟨msg, ?_⟩
  rw [score_and_rank, hjd, exceptBind_okHead]
  show (do
    let results ← List.mapM (scoreCandidate embed cosSim fuzz jdVec
      (jd_info.skills.getD []) (jd_info.title.getD "software engineer")
      (jd_info.years.getD 0)) candidates
    pure (sortDescBy (fun e => e.score) results)) = Except.error msg
  rw [hmsg, exceptBind_errHead]

/-- C9 witness: the amended statement applied to the counterexample input —
the second candidate's embedding failure makes the whole call error. -/
theorem score_and_rank_propagates_embedding_failure_witness :
    ∃ msg, score_and_rank
      (fun t => if t = "resume two".data then .error "embedding failure"
        else .ok [(1:ℚ)])
      (fun _ _ => 0) (fun _ _ => 0) "jd text".data ⟨none, none, none⟩
      [⟨"resume one".data, ⟨some [], some [], some 0⟩, some "p1", none⟩,
       ⟨"resume two".data, ⟨some [], some [], some 0⟩, some "p2", none⟩] =
      .error msg :=
  score_and_rank_propagates_embedding_failure
    (fun t => if t = "resume two".data then .error "embedding failure"
      else .ok [(1:ℚ)])
    (fun _ _ => 0) (fun _ _ => 0) "jd text".data ⟨none, none, none⟩
    [⟨"resume one".data, ⟨some [], some [], some 0⟩, some "p1", none⟩,
     ⟨"resume two".data, ⟨some [], some [], some 0⟩, some "p2", none⟩]
    [1] ⟨"resume two".data, ⟨some [], some [], some 0⟩, some "p2", none⟩
    "embedding failure" rfl (by simp) rfl
